import Mathlib

/-!
Verification of the Competition subsystem of a batch-auction DEX driver.

The definitions below are a shallow embedding of the Rust sources:

* `crates/driver/src/domain/competition/mod.rs` — `Competition::solve`,
  `Competition::settle`, the settlement-merging loop and best-score selection;
* `crates/driver/src/domain/competition/solution/mod.rs` — `Solution::new`,
  `clearing_price`, `clearing_prices`, `allowances`, `approvals`,
  `is_empty`, `user_trades`;
* `crates/driver/src/logic/eth/allowance.rs` — `Required::approval`,
  `Approval::max`;
* `crates/solvers/src/domain/solution.rs` — `Fulfillment::new`.

Machine integers (`U256`) are embedded as `Nat` with explicit bounds where
overflow matters. Rust `HashMap`s are embedded as association lists; every
statement made about them is invariant under the map's iteration order.
Collaborator modules that are not part of the sources (the driver's
`order.rs`, `eth` module, `settlement.rs`, `interaction.rs`) are modelled
from the specification and marked as such in their doc comments.
-/

/-- Modulus of 256-bit unsigned integers: `2 ^ 256`. -/
def U256_MOD : Nat := 2 ^ 256

/-- Largest representable `U256` value, `U256::max_value()`. -/
def U256_MAX : Nat := U256_MOD - 1

/-- Saturating addition on `U256` values (`U256::saturating_add`). -/
def satAdd (a b : Nat) : Nat := min (a + b) U256_MAX

/-- Checked addition on `U256` values (`U256::checked_add`): `none` on overflow. -/
def checkedAdd (a b : Nat) : Option Nat :=
  if a + b < U256_MOD then some (a + b) else none

namespace Solvers

/-- Order side, `crates/solvers` `order::Side`. -/
inductive Side where
  | buy
  | sell
deriving DecidableEq, Repr

/-- A token amount, `eth::Asset` of the solvers crate. -/
structure Asset where
  token : Nat
  amount : Nat
deriving DecidableEq, Repr

/-- Order class. Modelled from the spec: class ∈ \x7bMarket, Limit, Liquidity\x7d. -/
inductive OrderClass where
  | market
  | limit
  | liquidity
deriving DecidableEq, Repr

/-- Modelled from the spec: the solvers-crate `order::Order` (its `order.rs` is not
among the sources). The fields used by `Fulfillment::new` are the sell and buy
assets, the side, the partially-fillable flag and the class. -/
structure Order where
  sell : Asset
  buy : Asset
  side : Side
  partiallyFillable : Bool
  orderClass : OrderClass
deriving DecidableEq, Repr

/-- Modelled from the spec: `Order::has_solver_fee` (not among the sources); the
spec states that `class == Limit` holds iff a solver-computed surplus fee is
permitted. -/
def Order.hasSolverFee (o : Order) : Bool :=
  o.orderClass == OrderClass.limit

/-- Fee charged for executing an order, `solution::Fee`. -/
inductive Fee where
  | protocol
  | surplus (amount : Nat)
deriving DecidableEq, Repr

/-- The dynamic component of the fee, `Fee::surplus`. -/
def Fee.surplusAmount : Fee → Option Nat
  | .protocol => none
  | .surplus a => some a

/-- A traded order within a solution, `solution::Fulfillment`. -/
structure Fulfillment where
  order : Order
  executed : Nat
  fee : Fee
deriving DecidableEq, Repr

/-- Embedding of `Fulfillment::new` from `crates/solvers/src/domain/solution.rs`:
rejects a surplus fee on a non-Limit order (and vice versa), then checks the
executed amount (plus surplus fee, for sell orders, via checked addition)
against the order's full amount. -/
def Fulfillment.new (order : Order) (executed : Nat) (fee : Fee) : Option Fulfillment :=
  if fee.surplusAmount.isSome != order.hasSolverFee then
    none
  else
    match (match order.side with
      | Side.buy => some (order.buy.amount, executed)
      | Side.sell =>
        (checkedAdd executed (fee.surplusAmount.getD 0)).map
          (fun full => (order.sell.amount, full))) with
    | none => none
    | some (fill, full) =>
      if (!order.partiallyFillable && full != fill)
          || (order.partiallyFillable && full > fill) then
        none
      else
        some ⟨order, executed, fee⟩

/-- The filled amount of an execution, in the claim's sense: the executed amount,
plus the solver-computed surplus fee for sell orders. -/
def filledAmount (order : Order) (executed : Nat) (fee : Fee) : Nat :=
  match order.side with
  | Side.buy => executed
  | Side.sell => executed + fee.surplusAmount.getD 0

/-- The order's limit amount: the full buy amount for buy orders, the full sell
amount for sell orders. -/
def limitAmount (order : Order) : Nat :=
  match order.side with
  | Side.buy => order.buy.amount
  | Side.sell => order.sell.amount

end Solvers

namespace LogicEth

/-- The spender of an ERC20 allowance, `logic/eth/allowance.rs` `Spender`:
an (address, token) pair. -/
structure Spender where
  address : Nat
  token : Nat
deriving DecidableEq, Repr

/-- An ERC20 allowance, `logic/eth/allowance.rs` `Allowance`. -/
structure Allowance where
  spender : Spender
  amount : Nat
deriving DecidableEq, Repr

/-- An allowance already in effect on chain, `Existing` (a tuple struct). -/
structure Existing where
  val : Allowance
deriving DecidableEq, Repr

/-- An allowance required for some action, `Required` (a tuple struct). -/
structure Required where
  val : Allowance
deriving DecidableEq, Repr

/-- An approval to be made with an `approve()` call, `Approval` (a tuple struct). -/
structure Approval where
  val : Allowance
deriving DecidableEq, Repr

/-- Embedding of `Required::approval`: no approval is needed when the spenders
differ or the required amount does not exceed the existing one; otherwise the
required allowance itself becomes the approval. -/
def Required.approval (r : Required) (existing : Existing) : Option Approval :=
  if r.val.spender ≠ existing.val.spender ∨ r.val.amount ≤ existing.val.amount then
    none
  else
    some ⟨r.val⟩

/-- Embedding of `Approval::max`: approve the maximal amount possible. -/
def Approval.max (a : Approval) : Approval :=
  ⟨{ a.val with amount := U256_MAX }⟩

/-- Embedding of the approvals pipeline of `Solution::approvals`
(`domain/competition/solution/mod.rs` lines 100–122): for each required
allowance the existing on-chain allowance is read (modelled by the oracle
`existingOf` standing for the `eth.erc20(…).allowance(…)` call), and the
needed approvals are emitted with their amount maximized. -/
def approvalsFor (required : List Required) (existingOf : Required → Existing) :
    List Approval :=
  required.filterMap (fun r => (r.approval (existingOf r)).map Approval.max)

end LogicEth

namespace Driver

/-- Token addresses of the driver crate, embedded as `Nat`. -/
abbrev Token := Nat

/-- Modelled from the spec: the distinguished sentinel token address representing
native ETH (`eth::ETH_TOKEN`; the driver's `eth` module is not among the
sources). -/
def ETH_TOKEN : Token := 0xeeeeeeeeeeeeeeeeeeeeeeeeeeeeeeeeeeeeeeee

/-- Modelled from the spec: `TokenAddress::wrap` maps native ETH to the injected
WETH address and is the identity elsewhere. -/
def wrapToken (t : Token) (weth : Token) : Token :=
  if t = ETH_TOKEN then weth else t

/-- Order class of the driver crate, `order::Kind`. Modelled from the spec: the
driver's `order.rs` is not among the sources; `Limit` carries a solver-computed
surplus fee. -/
inductive OrderKind where
  | market
  | limit (surplusFee : Nat)
  | liquidity
deriving DecidableEq, Repr

/-- Modelled from the spec: the fields of the driver's `competition::Order` used
by the Solution pipeline — sell and buy assets and the order class. -/
structure Order where
  sellToken : Token
  sellAmount : Nat
  buyToken : Token
  buyAmount : Nat
  kind : OrderKind
deriving DecidableEq, Repr

/-- Modelled from the spec: `Order::buys_eth` — whether the order buys the
native token, i.e. its buy token is the native-ETH sentinel. -/
def Order.buysEth (o : Order) : Bool :=
  o.buyToken == ETH_TOKEN

/-- A fulfillment trade of the driver crate (`trade::Fulfillment`): an order
together with its executed amount. Modelled from the spec: `trade.rs` is not
among the sources; the pipeline only reads the `order` field. -/
structure Fulfillment where
  order : Order
  executed : Nat
deriving DecidableEq, Repr

/-- A trade of the driver crate: a fulfillment of a protocol order or a
just-in-time liquidity order (whose payload the pipeline never inspects,
modelled opaquely). -/
inductive Trade where
  | fulfillment (f : Fulfillment)
  | jit (payload : Nat)
deriving DecidableEq, Repr

/-- An ERC20 allowance of the driver's `domain::eth` module. Modelled from the
spec: the defining file is not among the sources; `Solution::allowances`
constructs it with the fields token, spender, amount, and sorts the results by
the derived lexicographic order on those fields. -/
structure EthAllowance where
  token : Nat
  spender : Nat
  amount : Nat
deriving DecidableEq, Repr

/-- Modelled from the spec: an Interaction is either a Liquidity or a Custom
interaction, each exposing an `allowances()` view producing (token, spender,
amount) triples; the driver's `interaction.rs` is not among the sources. -/
inductive Interaction where
  | liquidity (allowances : List EthAllowance) (internalize : Bool)
  | custom (allowances : List EthAllowance) (internalize : Bool)
deriving DecidableEq, Repr

/-- The `allowances()` view of an interaction. -/
def Interaction.allowances : Interaction → List EthAllowance
  | .liquidity a _ => a
  | .custom a _ => a

/-- Solver-reported score information, `SolverScore`. The `RiskAdjusted`
variant's `f64` success probability is never computed with in the claims below
and is carried opaquely. -/
inductive SolverScore where
  | solver (score : Nat)
  | riskAdjusted (probability : Nat)
deriving DecidableEq, Repr

/-- The driver's `Solution`: id, trades, clearing prices (a `HashMap` embedded
as an association list), interactions, solver, score and the injected WETH
address. -/
structure Solution where
  id : Nat
  trades : List Trade
  prices : List (Token × Nat)
  interactions : List Interaction
  solver : Nat
  score : SolverScore
  weth : Token
deriving DecidableEq, Repr

end Driver

namespace Driver

/-- Embedding of `Solution::user_trades`: the fulfillments of Market or Limit
orders; Liquidity-order fulfillments and Jit trades are not user trades. -/
def Solution.userTrades (s : Solution) : List Fulfillment :=
  s.trades.filterMap (fun t =>
    match t with
    | Trade.fulfillment f =>
      match f.order.kind with
      | OrderKind.market => some f
      | OrderKind.limit _ => some f
      | OrderKind.liquidity => none
    | Trade.jit _ => none)

/-- Embedding of `Solution::is_empty`: a solution with no user trades. -/
def Solution.isEmpty (s : Solution) : Bool :=
  s.userTrades.isEmpty

/-- Embedding of `Solution::clearing_price`: the price of the given token with
the ETH→WETH substitution applied, looked up in the solver-supplied price map. -/
def Solution.clearingPrice (s : Solution) (token : Token) : Option Nat :=
  s.prices.lookup (wrapToken token s.weth)

/-- The `InvalidClearingPrices` error of `Solution::new`. -/
inductive InvalidClearingPrices where
  | mk
deriving DecidableEq, Repr

/-- Embedding of `Solution::new`: builds the solution and rejects it with
`InvalidClearingPrices` unless every user trade has a clearing price for both
its sell token and its buy token. -/
def Solution.new (id : Nat) (trades : List Trade) (prices : List (Token × Nat))
    (interactions : List Interaction) (solver : Nat) (score : SolverScore)
    (weth : Token) : Except InvalidClearingPrices Solution :=
  let solution : Solution := ⟨id, trades, prices, interactions, solver, score, weth⟩
  if solution.userTrades.all (fun trade =>
      (solution.clearingPrice trade.order.sellToken).isSome
        && (solution.clearingPrice trade.order.buyToken).isSome) then
    Except.ok solution
  else
    Except.error InvalidClearingPrices.mk

/-- A token amount of the driver crate, `eth::Asset`. -/
structure Asset where
  token : Token
  amount : Nat
deriving DecidableEq, Repr

/-- Embedding of `Solution::clearing_prices`, the published on-chain price set.
If some user trade buys native ETH: when no user trade sells or buys WETH the
WETH price is dropped from the set, and a price for the ETH sentinel equal to
the WETH price is appended. The Rust code indexes the price map at the WETH key
(`self.prices[&self.weth.into()]`), which panics when absent; that case is
embedded as `none`. When no user trade buys ETH the solver-supplied map is
published unchanged. -/
def Solution.clearingPrices (s : Solution) : Option (List Asset) :=
  let prices := s.prices.map (fun p => Asset.mk p.1 p.2)
  if s.userTrades.any (fun t => t.order.buysEth) then
    let kept :=
      if s.userTrades.all (fun t =>
          t.order.sellToken != s.weth && t.order.buyToken != s.weth) then
        prices.filter (fun p => p.token != s.weth)
      else
        prices
    match s.prices.lookup s.weth with
    | some amount => some (kept ++ [Asset.mk ETH_TOKEN amount])
    | none => none
  else
    some prices

/-- The (token, spender) key of an allowance. -/
def allowanceKey (a : EthAllowance) : Nat × Nat :=
  (a.token, a.spender)

/-- The multiset of allowances demanded by a solution's interactions
(`self.interactions.iter().flat_map(Interaction::allowances)`). -/
def Solution.collectedAllowances (s : Solution) : List EthAllowance :=
  (s.interactions.map Interaction.allowances).flatten

/-- The saturating sum of the amounts of all allowances with the given
(token, spender) key. -/
def satSumFor (l : List EthAllowance) (k : Nat × Nat) : Nat :=
  ((l.filter (fun a => allowanceKey a == k)).map EthAllowance.amount).foldl satAdd 0

/-- The derived lexicographic order on the driver's `eth::Allowance`:
by token, then spender, then amount. -/
def allowLe (a b : EthAllowance) : Prop :=
  a.token < b.token
    ∨ (a.token = b.token
        ∧ (a.spender < b.spender
            ∨ (a.spender = b.spender ∧ a.amount ≤ b.amount)))

instance : DecidableRel allowLe := fun a b => by
  unfold allowLe
  infer_instance

instance : IsTotal EthAllowance allowLe := by
  constructor
  intro a b
  unfold allowLe
  omega

instance : IsTrans EthAllowance allowLe := by
  constructor
  intro a b c
  unfold allowLe
  omega

/-- The accumulation `HashMap` of `Solution::allowances` as a list of entries:
one entry per distinct (token, spender) key of the collected allowances, whose
amount is the saturating sum of the amounts under that key. The Rust map's
iteration order is immaterial: the entries have pairwise distinct keys, so the
sorted sequence produced below is unique. -/
def normalizedEntries (all : List EthAllowance) : List EthAllowance :=
  ((all.map allowanceKey).dedup).map
    (fun k => EthAllowance.mk k.1 k.2 (satSumFor all k))

/-- Embedding of the sorting step of `Solution::allowances` (`.sorted()`): the
normalized entries in the derived lexicographic order. -/
def Solution.allowances (s : Solution) : List EthAllowance :=
  (normalizedEntries s.collectedAllowances).insertionSort allowLe

end Driver

namespace Driver

/-- Modelled from the spec: the encoded `Settlement` (its `settlement.rs` is not
among the sources). It carries the originating solver, the auction id, the
settled orders, and the encoded calldata in its internalized and uninternalized
variants; `Competition` treats it opaquely through these fields. -/
structure Settlement where
  solver : Nat
  auctionId : Nat
  orders : List Nat
  internalizedCalldata : List Nat
  uninternalizedCalldata : List Nat
deriving DecidableEq, Repr

/-- The internalization switch passed to `Settlement::calldata`. -/
inductive Internalization where
  | enable
  | disable
deriving DecidableEq, Repr

/-- Modelled from the spec: `Settlement::calldata` selects the internalized or
uninternalized encoding. -/
def Settlement.calldata (s : Settlement) : Internalization → List Nat
  | Internalization.enable => s.internalizedCalldata
  | Internalization.disable => s.uninternalizedCalldata

/-- Modelled from the spec: a settlement `Score` is a big rational, totally
ordered. -/
abbrev Score := ℚ

/-- The per-solver competition state: the single mutable slot holding at most
one reserved settlement (`settlement: Mutex<Option<Settlement>>`). -/
structure CompetitionState where
  settlement : Option Settlement
deriving DecidableEq, Repr

/-- The error type of `Competition` (`competition::Error`). The payloads of the
deadline and solver variants play no role in the claims and are dropped. -/
inductive CompetitionError where
  | solutionNotAvailable
  | solutionNotFound
  | deadlineExceeded
  | solver
deriving DecidableEq, Repr

/-- The `Reveal` returned by a successful solve: score plus settled orders. -/
structure Reveal where
  score : Score
  orders : List Nat
deriving DecidableEq, Repr

/-- The `Calldata` returned by `Competition::settle`. -/
structure Calldata where
  internalized : List Nat
  uninternalized : List Nat
deriving DecidableEq, Repr

/-- One comparison step of Rust's `Iterator::max_by_key`: a later element
replaces the current maximum whenever its key is greater than or equal, so the
last of several equally maximal elements wins. -/
def maxStep (acc : Option (Score × Settlement)) (x : Score × Settlement) :
    Option (Score × Settlement) :=
  match acc with
  | none => some x
  | some a => if a.1 ≤ x.1 then some x else some a

/-- Embedding of `scores.into_iter().max_by_key(|(score, _)| …)` as a left fold
of `maxStep`. -/
def maxByScore (scores : List (Score × Settlement)) : Option (Score × Settlement) :=
  scores.foldl maxStep none

/-- Embedding of the tail of `Competition::solve`: pick the best-scoring
settlement, install it in the slot and return the `Reveal`; with no scored
settlement the call fails with `SolutionNotFound` and the slot is untouched. -/
def solveFinish (scores : List (Score × Settlement)) (st : CompetitionState) :
    CompetitionState × Except CompetitionError Reveal :=
  match maxByScore scores with
  | none => (st, Except.error CompetitionError.solutionNotFound)
  | some (score, settlement) =>
    (⟨some settlement⟩, Except.ok ⟨score, settlement.orders⟩)

/-- Embedding of the inner `for other in settlements.iter_mut()` scan of the
merging loop: try to merge `x` into each element in order and replace the first
element for which the merge succeeds; `none` when no merge succeeds. The
`tryMerge` oracle stands for `other.merge(&settlement, eth, simulator)`, whose
implementation lives in the absent `settlement.rs`. -/
def mergeStep (tryMerge : Settlement → Settlement → Option Settlement) :
    List Settlement → Settlement → Option (List Settlement)
  | [], _ => none
  | y :: rest, x =>
    match tryMerge y x with
    | some z => some (z :: rest)
    | none => (mergeStep tryMerge rest x).map (fun w => y :: w)

theorem mergeStep_length (tryMerge : Settlement → Settlement → Option Settlement)
    (l : List Settlement) (x : Settlement) (l2 : List Settlement)
    (h : mergeStep tryMerge l x = some l2) : l2.length = l.length := by
  induction l generalizing l2 with
  | nil => simp [mergeStep] at h
  | cons y rest ih =>
    simp only [mergeStep] at h
    cases htm : tryMerge y x with
    | some z =>
      rw [htm] at h
      cases h
      simp
    | none =>
      rw [htm] at h
      cases hrec : mergeStep tryMerge rest x with
      | none =>
        rw [hrec] at h
        simp at h
      | some w =>
        rw [hrec] at h
        simp only [Option.map_some] at h
        cases h
        simp [ih w hrec]

/-- One iteration of the merging loop of `Competition::solve`: pop the last
settlement of the working vector; if it merges into some remaining settlement,
replace that settlement, otherwise move it to the results vector. `none` when
the working vector is empty and the loop terminates. -/
def loopStep (tryMerge : Settlement → Settlement → Option Settlement) :
    List Settlement × List Settlement → Option (List Settlement × List Settlement)
  | (w, r) =>
    match w.getLast? with
    | none => none
    | some x =>
      match mergeStep tryMerge w.dropLast x with
      | some w2 => some (w2, r)
      | none => some (w.dropLast, r ++ [x])

theorem loopStep_w_lt (tryMerge : Settlement → Settlement → Option Settlement)
    (w r w2 r2 : List Settlement) (h : loopStep tryMerge (w, r) = some (w2, r2)) :
    w2.length < w.length := by
  simp only [loopStep] at h
  split at h
  · simp at h
  · rename_i x hw
    have hne : w ≠ [] := by
      intro hnil
      rw [hnil] at hw
      simp at hw
    have hpos : 0 < w.length := List.length_pos_of_ne_nil hne
    split at h
    · rename_i wm hm
      simp only [Option.some.injEq, Prod.mk.injEq] at h
      obtain ⟨rfl, rfl⟩ := h
      have := mergeStep_length tryMerge w.dropLast x wm hm
      rw [this, List.length_dropLast]
      omega
    · simp only [Option.some.injEq, Prod.mk.injEq] at h
      obtain ⟨rfl, rfl⟩ := h
      rw [List.length_dropLast]
      omega

/-- Embedding of the merging `while let Some(settlement) = settlements.pop()`
loop of `Competition::solve`, driven by `loopStep`. -/
def mergeLoop (tryMerge : Settlement → Settlement → Option Settlement)
    (w r : List Settlement) : List Settlement :=
  match h : loopStep tryMerge (w, r) with
  | none => r
  | some (w2, r2) =>
    have : w2.length < w.length := loopStep_w_lt tryMerge w r w2 r2 h
    mergeLoop tryMerge w2 r2
termination_by w.length

/-- The number of `merge` attempts performed by one scan of `mergeStep`:
one per element inspected, stopping at the first success. -/
def mergeStepAttempts (tryMerge : Settlement → Settlement → Option Settlement) :
    List Settlement → Settlement → Nat
  | [], _ => 0
  | y :: rest, x =>
    match tryMerge y x with
    | some _ => 1
    | none => 1 + mergeStepAttempts tryMerge rest x

/-- The total number of `merge` attempts performed by the merging loop,
following the recursion of `mergeLoop`. -/
def mergeLoopAttempts (tryMerge : Settlement → Settlement → Option Settlement)
    (w : List Settlement) : Nat :=
  match hw : w.getLast? with
  | none => 0
  | some x =>
    have hne : w ≠ [] := by
      intro hnil
      rw [hnil] at hw
      simp at hw
    have hpos : 0 < w.length := List.length_pos_of_ne_nil hne
    mergeStepAttempts tryMerge w.dropLast x +
      match hm : mergeStep tryMerge w.dropLast x with
      | some w2 =>
        have h2 : w2.length < w.length := by
          have := mergeStep_length tryMerge w.dropLast x w2 hm
          rw [this, List.length_dropLast]
          omega
        mergeLoopAttempts tryMerge w2
      | none =>
        have h3 : w.dropLast.length < w.length := by
          rw [List.length_dropLast]
          omega
        mergeLoopAttempts tryMerge w.dropLast
termination_by w.length

end Driver

namespace Driver

/-- The environment of one `Competition::solve` call. The oracles stand for the
calls into external collaborators: `timeoutOk` for `auction.deadline.timeout()`
succeeding, `encode` for `solution.encode(auction, eth, simulator)` (`none`
models an encoding error, which drops the solution), `shuffle` for
`settlements.shuffle(&mut rand::thread_rng())`, `tryMerge` for
`Settlement::merge`, and `scoreOf` for `settlement.score(eth, auction)`
(`none` models a scoring failure, which drops the settlement). -/
structure SolveParams where
  timeoutOk : Bool
  encode : Solution → Option Settlement
  shuffle : List Settlement → List Settlement
  tryMerge : Settlement → Settlement → Option Settlement
  scoreOf : Settlement → Option Score

/-- The scored settlements computed by `Competition::solve` from the solver's
solutions: drop empty solutions, encode (dropping encoding failures), shuffle,
run the merging loop, then score (dropping scoring failures). -/
def scoredSettlements (p : SolveParams) (solutions : List Solution) :
    List (Score × Settlement) :=
  let nonEmpty := solutions.filter (fun s => !s.isEmpty)
  let encoded := nonEmpty.filterMap p.encode
  let merged := mergeLoop p.tryMerge (p.shuffle encoded) []
  merged.filterMap (fun s => (p.scoreOf s).map (fun sc => (sc, s)))

/-- Embedding of `Competition::solve`
(`crates/driver/src/domain/competition/mod.rs`): a deadline failure or a solver
error returns early; otherwise the solver's solutions are piped through
`scoredSettlements` and the best-scoring settlement is installed in the slot by
`solveFinish`. `solverResult` stands for the awaited
`self.solver.solve(auction, liquidity, timeout)` call. -/
def Competition.solve (p : SolveParams)
    (solverResult : Except Unit (List Solution)) (st : CompetitionState) :
    CompetitionState × Except CompetitionError Reveal :=
  if !p.timeoutOk then
    (st, Except.error CompetitionError.deadlineExceeded)
  else
    match solverResult with
    | Except.error _ => (st, Except.error CompetitionError.solver)
    | Except.ok solutions => solveFinish (scoredSettlements p solutions) st

/-- Embedding of `Competition::settle`: take the settlement out of the slot
(failing with `SolutionNotAvailable` when it is empty) and return its
internalized and uninternalized calldata. The background mempool submission has
no effect on the slot and is not modelled. -/
def Competition.settle (st : CompetitionState) :
    CompetitionState × Except CompetitionError Calldata :=
  match st.settlement with
  | none => (st, Except.error CompetitionError.solutionNotAvailable)
  | some s =>
    (⟨none⟩,
      Except.ok
        ⟨s.calldata Internalization.enable, s.calldata Internalization.disable⟩)

end Driver

open Solvers in
/-- C8: for every order, executed amount, and fee kind, `Fulfillment::new`
returns `Some` if and only if the fee kind is `Surplus` exactly when the order
admits a solver-computed fee (a Limit order), and the filled amount does not
exceed the order's limit amount when the order is partially fillable, and
equals the limit amount exactly when it is not. -/
theorem C8_fulfillment_new_iff (o : Order) (e : Nat) (f : Fee)
    (hb : o.buy.amount < U256_MOD) (hs : o.sell.amount < U256_MOD) :
    (Fulfillment.new o e f).isSome = true ↔
      ((f.surplusAmount.isSome = true ↔ o.orderClass = OrderClass.limit)
        ∧ (o.partiallyFillable = true → filledAmount o e f ≤ limitAmount o)
        ∧ (o.partiallyFillable = false → filledAmount o e f = limitAmount o)) := by
  obtain ⟨⟨st, sa⟩, ⟨bt, ba⟩, side, pf, cls⟩ := o
  simp only [U256_MOD] at hb hs
  cases side <;> cases pf <;> cases f <;> cases cls <;>
    simp [Fulfillment.new, Order.hasSolverFee, Fee.surplusAmount,
      filledAmount, limitAmount, checkedAdd, U256_MOD] <;>
    (try omega) <;>
    split_ifs <;>
    simp_all <;>
    omega

/-- A concrete fully-filled sell order used to witness C8. -/
def sampleOrderC8 : Solvers.Order :=
  ⟨⟨1, 10⟩, ⟨2, 20⟩, Solvers.Side.sell, false, Solvers.OrderClass.market⟩

open Solvers in
/-- Witness for C8 at a concrete order, executed amount, and fee. -/
theorem C8_fulfillment_new_iff_witness :
    sampleOrderC8.buy.amount < U256_MOD
      ∧ sampleOrderC8.sell.amount < U256_MOD
      ∧ ((Fulfillment.new sampleOrderC8 10 Fee.protocol).isSome = true ↔
          ((Fee.protocol.surplusAmount.isSome = true ↔
              sampleOrderC8.orderClass = OrderClass.limit)
            ∧ (sampleOrderC8.partiallyFillable = true →
                filledAmount sampleOrderC8 10 Fee.protocol ≤ limitAmount sampleOrderC8)
            ∧ (sampleOrderC8.partiallyFillable = false →
                filledAmount sampleOrderC8 10 Fee.protocol = limitAmount sampleOrderC8))) :=
  ⟨by decide, by decide,
    C8_fulfillment_new_iff sampleOrderC8 10 Fee.protocol (by decide) (by decide)⟩

open LogicEth in
/-- C7: an approval is emitted for a required allowance against an existing
on-chain allowance if and only if their spenders — (address, token) pairs —
coincide and the required amount strictly exceeds the existing amount, and
every approval emitted by the approvals pipeline has its amount set to the
maximum representable `U256` value. -/
theorem C7_approval_iff_and_max (r : Required) (e : Existing)
    (reqs : List Required) (existingOf : Required → Existing)
    (a : Approval) (ha : a ∈ approvalsFor reqs existingOf) :
    ((r.approval e).isSome = true ↔
        (r.val.spender = e.val.spender ∧ e.val.amount < r.val.amount))
      ∧ a.val.amount = U256_MAX := by
  constructor
  · unfold Required.approval
    split_ifs with h
    · simp only [Option.isSome_none, Bool.false_eq_true, false_iff]
      intro ⟨h1, h2⟩
      rcases h with h | h
      · exact h h1
      · omega
    · push_neg at h
      simp only [Option.isSome_some, true_iff]
      exact ⟨h.1, by omega⟩
  · unfold approvalsFor at ha
    rw [List.mem_filterMap] at ha
    obtain ⟨req, _, hmap⟩ := ha
    cases happ : req.approval (existingOf req) with
    | none => rw [happ] at hmap; simp at hmap
    | some ap =>
      rw [happ] at hmap
      injection hmap with h2
      rw [← h2]
      rfl

/-- A concrete required allowance used to witness C7. -/
def sampleRequiredC7 : LogicEth.Required := ⟨⟨⟨5, 6⟩, 100⟩⟩

/-- A concrete existing on-chain allowance used to witness C7. -/
def sampleExistingC7 : LogicEth.Existing := ⟨⟨⟨5, 6⟩, 40⟩⟩

/-- The approval the pipeline emits in the C7 witness scenario. -/
def sampleApprovalC7 : LogicEth.Approval := ⟨⟨⟨5, 6⟩, U256_MAX⟩⟩

open LogicEth in
/-- Witness for C7 at a concrete required/existing pair and pipeline run. -/
theorem C7_approval_iff_and_max_witness :
    sampleApprovalC7 ∈
        approvalsFor [sampleRequiredC7] (fun _ => sampleExistingC7)
      ∧ (((sampleRequiredC7.approval sampleExistingC7).isSome = true ↔
            (sampleRequiredC7.val.spender = sampleExistingC7.val.spender
              ∧ sampleExistingC7.val.amount < sampleRequiredC7.val.amount))
          ∧ sampleApprovalC7.val.amount = U256_MAX) :=
  ⟨by decide,
    C7_approval_iff_and_max sampleRequiredC7 sampleExistingC7 [sampleRequiredC7]
      (fun _ => sampleExistingC7) sampleApprovalC7 (by decide)⟩

open Driver in
/-- C2: when the slot holds a settlement, `settle` succeeds, empties the slot
and returns the internalized and uninternalized calldata; a second `settle`
without an intervening solve fails with `SolutionNotAvailable` and leaves the
slot empty; and `settle` on an empty slot fails with `SolutionNotAvailable`
leaving the state unchanged. -/
theorem C2_settle_idempotent (st : CompetitionState) (s : Settlement)
    (h : st.settlement = some s) :
    Competition.settle st =
        (⟨none⟩, Except.ok ⟨s.internalizedCalldata, s.uninternalizedCalldata⟩)
      ∧ Competition.settle (Competition.settle st).1 =
          ((Competition.settle st).1,
            Except.error CompetitionError.solutionNotAvailable)
      ∧ (∀ st2 : CompetitionState, st2.settlement = none →
          Competition.settle st2 =
            (st2, Except.error CompetitionError.solutionNotAvailable)) := by
  refine ⟨?_, ?_, ?_⟩
  · simp [Competition.settle, h, Settlement.calldata]
  · simp [Competition.settle, h, Settlement.calldata]
  · intro st2 h2
    simp [Competition.settle, h2]

/-- A concrete settlement used by the witnesses below. -/
def sampleSettlementA : Driver.Settlement := ⟨7, 1, [11], [1, 2], [3, 4]⟩

open Driver in
/-- Witness for C2 with the slot holding a concrete settlement. -/
theorem C2_settle_idempotent_witness :
    (CompetitionState.mk (some sampleSettlementA)).settlement = some sampleSettlementA
      ∧ (Competition.settle ⟨some sampleSettlementA⟩ =
          (⟨none⟩,
            Except.ok
              ⟨sampleSettlementA.internalizedCalldata,
                sampleSettlementA.uninternalizedCalldata⟩)
        ∧ Competition.settle (Competition.settle ⟨some sampleSettlementA⟩).1 =
            ((Competition.settle ⟨some sampleSettlementA⟩).1,
              Except.error CompetitionError.solutionNotAvailable)
        ∧ (∀ st2 : CompetitionState, st2.settlement = none →
            Competition.settle st2 =
              (st2, Except.error CompetitionError.solutionNotAvailable))) :=
  ⟨rfl, C2_settle_idempotent ⟨some sampleSettlementA⟩ sampleSettlementA rfl⟩

open Driver in
/-- C9: whenever `Competition::solve` returns an error — deadline exceeded,
solver error, or `SolutionNotFound` — the settlement slot is left unchanged;
the slot is written only when a settlement has been selected. -/
theorem C9_solve_error_slot_unchanged (p : SolveParams)
    (solverResult : Except Unit (List Solution)) (st : CompetitionState)
    (err : CompetitionError)
    (h : (Competition.solve p solverResult st).2 = Except.error err) :
    (Competition.solve p solverResult st).1 = st := by
  unfold Competition.solve at h ⊢
  cases hto : p.timeoutOk with
  | false => simp [hto]
  | true =>
    simp only [hto, Bool.not_true] at h ⊢
    simp only [if_neg (by simp : ¬(false = true))] at h ⊢
    cases solverResult with
    | error u => simp
    | ok sols =>
      simp only [solveFinish] at h ⊢
      cases hmax : maxByScore (scoredSettlements p sols) with
      | none => simp [hmax]
      | some pr =>
        rw [hmax] at h
        cases pr
        simp at h

/-- Solve parameters whose deadline has already elapsed, used to witness C9. -/
def sampleParamsExpired : Driver.SolveParams :=
  ⟨false, fun _ => none, id, fun _ _ => none, fun _ => none⟩

open Driver in
/-- Witness for C9: an expired deadline returns an error and leaves a concrete
slot unchanged. -/
theorem C9_solve_error_slot_unchanged_witness :
    (Competition.solve sampleParamsExpired (Except.ok []) ⟨some sampleSettlementA⟩).2 =
        Except.error CompetitionError.deadlineExceeded
      ∧ (Competition.solve sampleParamsExpired (Except.ok [])
            ⟨some sampleSettlementA⟩).1 =
          ⟨some sampleSettlementA⟩ :=
  ⟨rfl,
    C9_solve_error_slot_unchanged sampleParamsExpired (Except.ok [])
      ⟨some sampleSettlementA⟩ CompetitionError.deadlineExceeded rfl⟩

namespace Driver

theorem foldl_maxStep_some (l : List (Score × Settlement)) (a p : Score × Settlement) :
    l.foldl maxStep (some a) = some p ↔
      ((p = a ∧ ∀ q ∈ l, q.1 < a.1)
        ∨ ∃ l1 l2, l = l1 ++ p :: l2 ∧ a.1 ≤ p.1
            ∧ (∀ q ∈ l1, q.1 ≤ p.1) ∧ (∀ q ∈ l2, q.1 < p.1)) := by
  induction l generalizing a with
  | nil =>
    constructor
    · intro h
      injection h with h
      exact Or.inl ⟨h.symm, by simp⟩
    · rintro (⟨rfl, _⟩ | ⟨l1, l2, heq, _, _, _⟩)
      · rfl
      · exact absurd heq (by simp)
  | cons x rest ih =>
    rw [List.foldl_cons]
    by_cases hax : a.1 ≤ x.1
    · rw [show maxStep (some a) x = some x from by simp [maxStep, hax]]
      rw [ih x]
      constructor
      · rintro (⟨rfl, hrest⟩ | ⟨r1, r2, rfl, hxp, h1, h2⟩)
        · exact Or.inr ⟨[], rest, rfl, hax, by simp, hrest⟩
        · refine Or.inr ⟨x :: r1, r2, rfl, le_trans hax hxp, ?_, h2⟩
          intro q hq
          rcases List.mem_cons.mp hq with rfl | hq
          · exact hxp
          · exact h1 q hq
      · rintro (⟨rfl, hall⟩ | ⟨l1, l2, heq, hap, h1, h2⟩)
        · exact absurd hax (not_le.mpr (hall x (List.mem_cons_self x rest)))
        · cases l1 with
          | nil =>
            simp only [List.nil_append, List.cons.injEq] at heq
            obtain ⟨rfl, rfl⟩ := heq
            exact Or.inl ⟨rfl, h2⟩
          | cons y r1 =>
            simp only [List.cons_append, List.cons.injEq] at heq
            obtain ⟨rfl, rfl⟩ := heq
            refine Or.inr ⟨r1, l2, rfl, h1 x (List.mem_cons_self _ _), ?_, h2⟩
            intro q hq
            exact h1 q (List.mem_cons_of_mem _ hq)
    · rw [show maxStep (some a) x = some a from by simp [maxStep, hax]]
      rw [ih a]
      have hxa : x.1 < a.1 := not_le.mp hax
      constructor
      · rintro (⟨rfl, hrest⟩ | ⟨r1, r2, rfl, hap, h1, h2⟩)
        · refine Or.inl ⟨rfl, ?_⟩
          intro q hq
          rcases List.mem_cons.mp hq with rfl | hq
          · exact hxa
          · exact hrest q hq
        · refine Or.inr ⟨x :: r1, r2, rfl, hap, ?_, h2⟩
          intro q hq
          rcases List.mem_cons.mp hq with rfl | hq
          · exact le_trans (le_of_lt hxa) hap
          · exact h1 q hq
      · rintro (⟨rfl, hall⟩ | ⟨l1, l2, heq, hap, h1, h2⟩)
        · exact Or.inl ⟨rfl, fun q hq => hall q (List.mem_cons_of_mem _ hq)⟩
        · cases l1 with
          | nil =>
            simp only [List.nil_append, List.cons.injEq] at heq
            obtain ⟨rfl, rfl⟩ := heq
            exact absurd hap hax
          | cons y r1 =>
            simp only [List.cons_append, List.cons.injEq] at heq
            obtain ⟨rfl, rfl⟩ := heq
            exact Or.inr ⟨r1, l2, rfl, hap,
              fun q hq => h1 q (List.mem_cons_of_mem _ hq), h2⟩

theorem foldl_maxStep_ne_none (l : List (Score × Settlement)) (a : Score × Settlement) :
    l.foldl maxStep (some a) ≠ none := by
  induction l generalizing a with
  | nil => simp
  | cons x rest ih =>
    rw [List.foldl_cons]
    by_cases hax : a.1 ≤ x.1
    · rw [show maxStep (some a) x = some x from by simp [maxStep, hax]]
      exact ih x
    · rw [show maxStep (some a) x = some a from by simp [maxStep, hax]]
      exact ih a

theorem maxByScore_eq_some (l : List (Score × Settlement)) (p : Score × Settlement) :
    maxByScore l = some p ↔
      ∃ l1 l2, l = l1 ++ p :: l2 ∧ (∀ q ∈ l1, q.1 ≤ p.1) ∧ (∀ q ∈ l2, q.1 < p.1) := by
  cases l with
  | nil =>
    simp [maxByScore]
  | cons x rest =>
    have hstep : maxByScore (x :: rest) = rest.foldl maxStep (some x) := by
      simp [maxByScore, List.foldl_cons, maxStep]
    rw [hstep, foldl_maxStep_some]
    constructor
    · rintro (⟨rfl, hrest⟩ | ⟨r1, r2, rfl, hxp, h1, h2⟩)
      · exact ⟨[], rest, rfl, by simp, hrest⟩
      · refine ⟨x :: r1, r2, rfl, ?_, h2⟩
        intro q hq
        rcases List.mem_cons.mp hq with rfl | hq
        · exact hxp
        · exact h1 q hq
    · rintro ⟨l1, l2, heq, h1, h2⟩
      cases l1 with
      | nil =>
        simp only [List.nil_append, List.cons.injEq] at heq
        obtain ⟨rfl, rfl⟩ := heq
        exact Or.inl ⟨rfl, h2⟩
      | cons y r1 =>
        simp only [List.cons_append, List.cons.injEq] at heq
        obtain ⟨rfl, rfl⟩ := heq
        exact Or.inr ⟨r1, l2, rfl, h1 x (List.mem_cons_self _ _),
          fun q hq => h1 q (List.mem_cons_of_mem _ hq), h2⟩

theorem maxByScore_eq_none (l : List (Score × Settlement)) :
    maxByScore l = none ↔ l = [] := by
  cases l with
  | nil => simp [maxByScore]
  | cons x rest =>
    have hstep : maxByScore (x :: rest) = rest.foldl maxStep (some x) := by
      simp [maxByScore, List.foldl_cons, maxStep]
    rw [hstep]
    simp [foldl_maxStep_ne_none]

end Driver

open Driver in
/-- C1: `Competition::solve` (whose selection tail is `solveFinish` applied to
the settlements that scored successfully) installs the settlement selected by
`maxByScore` in the slot and returns its score and orders; `maxByScore` picks
an element whose score dominates everything before it strictly and everything
after it weakly — i.e. a maximal-score element, the last one among equals —
and an empty scored list yields the `SolutionNotFound` error. -/
theorem C1_best_settlement_selected (scores : List (Score × Settlement))
    (st : CompetitionState) (p : Score × Settlement) :
    (scores = [] →
        solveFinish scores st = (st, Except.error CompetitionError.solutionNotFound))
      ∧ (maxByScore scores = some p →
          solveFinish scores st = (⟨some p.2⟩, Except.ok ⟨p.1, p.2.orders⟩))
      ∧ (maxByScore scores = some p ↔
          ∃ l1 l2, scores = l1 ++ p :: l2
            ∧ (∀ q ∈ l1, q.1 ≤ p.1) ∧ (∀ q ∈ l2, q.1 < p.1))
      ∧ (∀ sp : SolveParams, sp.timeoutOk = true → ∀ sols,
          Competition.solve sp (Except.ok sols) st =
            solveFinish (scoredSettlements sp sols) st) := by
  refine ⟨?_, ?_, maxByScore_eq_some scores p, ?_⟩
  · rintro rfl
    rfl
  · intro hmax
    obtain ⟨sc, stl⟩ := p
    simp [solveFinish, hmax]
  · intro sp hto sols
    simp [Competition.solve, hto]

/-- A second concrete settlement. -/
def sampleSettlementB : Driver.Settlement := ⟨7, 2, [12], [5], [6]⟩

/-- A third concrete settlement. -/
def sampleSettlementC : Driver.Settlement := ⟨7, 3, [13], [8], [9]⟩

/-- A concrete scored list with a tied maximal score, used to witness C1. -/
def scoresSampleC1 : List (Driver.Score × Driver.Settlement) :=
  [(2, sampleSettlementA), (3, sampleSettlementB), (3, sampleSettlementC)]

open Driver in
/-- Witness for C1: with two settlements tied at the maximal score, the later
one is selected and installed in the slot. -/
theorem C1_best_settlement_selected_witness :
    maxByScore scoresSampleC1 = some (3, sampleSettlementC)
      ∧ solveFinish scoresSampleC1 ⟨none⟩ =
          (⟨some sampleSettlementC⟩, Except.ok ⟨3, sampleSettlementC.orders⟩) :=
  ⟨by decide,
    (C1_best_settlement_selected scoresSampleC1 ⟨none⟩ (3, sampleSettlementC)).2.1
      (by decide)⟩

namespace Driver

theorem mergeStepAttempts_le (tm : Settlement → Settlement → Option Settlement)
    (l : List Settlement) (x : Settlement) :
    mergeStepAttempts tm l x ≤ l.length := by
  induction l with
  | nil => simp [mergeStepAttempts]
  | cons y rest ih =>
    rw [mergeStepAttempts]
    split
    · simp only [List.length_cons]
      omega
    · simp only [List.length_cons]
      omega

theorem mergeLoopAttempts_le (tm : Settlement → Settlement → Option Settlement)
    (w : List Settlement) :
    mergeLoopAttempts tm w ≤ w.length * w.length := by
  induction w using mergeLoopAttempts.induct tm with
  | case1 x hx =>
    rw [mergeLoopAttempts]
    split
    · simp
    · rename_i y heq
      rw [hx] at heq
      cases heq
  | case2 x x1 hlast hne hpos ih1 ih2 =>
    rw [mergeLoopAttempts]
    split
    · rename_i heq
      rw [hlast] at heq
      cases heq
    · rename_i y heq
      rw [hlast] at heq
      injection heq with heq
      subst heq
      obtain ⟨m, hm⟩ : ∃ m, x.length = m + 1 := ⟨x.length - 1, by omega⟩
      have hstep : mergeStepAttempts tm x.dropLast x1 ≤ m := by
        have := mergeStepAttempts_le tm x.dropLast x1
        rw [List.length_dropLast, hm] at this
        omega
      have hexp : (m + 1) * (m + 1) = m * m + 2 * m + 1 := by ring
      split
      · rename_i w2 hm2
        have hlen : w2.length = m := by
          have := mergeStep_length tm x.dropLast x1 w2 hm2
          rw [List.length_dropLast, hm] at this
          omega
        have hrec := ih1 w2 hm2
        rw [hlen] at hrec
        show mergeStepAttempts tm x.dropLast x1 + mergeLoopAttempts tm w2 ≤
          x.length * x.length
        rw [hm, hexp]
        linarith
      · have hrec := ih2
        rw [List.length_dropLast, hm] at hrec
        simp only [Nat.add_sub_cancel] at hrec
        show mergeStepAttempts tm x.dropLast x1 + mergeLoopAttempts tm x.dropLast ≤
          x.length * x.length
        rw [hm, hexp]
        linarith

end Driver

open Driver in
/-- C3: the merging loop of `Competition::solve` terminates on every finite
input. Each successful `loopStep` iteration strictly decreases the monovariant
`2·|W| + |R|`, removes exactly one element from the working vector, and either
leaves the results vector unchanged (a merge) or appends exactly one element
to it (a move); moreover the total number of merge attempts performed by the
loop is at most `n²` for `n` working settlements. -/
theorem C3_merge_loop_monovariant (tm : Settlement → Settlement → Option Settlement)
    (w r w2 r2 : List Settlement) (h : loopStep tm (w, r) = some (w2, r2)) :
    (2 * w2.length + r2.length < 2 * w.length + r.length)
      ∧ w2.length + 1 = w.length
      ∧ (r2 = r ∨ ∃ x, r2 = r ++ [x])
      ∧ mergeLoopAttempts tm w ≤ w.length * w.length := by
  have hattempts := mergeLoopAttempts_le tm w
  simp only [loopStep] at h
  split at h
  · simp at h
  · rename_i x hw
    have hne : w ≠ [] := by
      intro hnil
      rw [hnil] at hw
      simp at hw
    have hpos : 0 < w.length := List.length_pos_of_ne_nil hne
    split at h
    · rename_i wm hmerge
      simp only [Option.some.injEq, Prod.mk.injEq] at h
      obtain ⟨rfl, rfl⟩ := h
      have hlen := mergeStep_length tm w.dropLast x wm hmerge
      rw [List.length_dropLast] at hlen
      refine ⟨by omega, by omega, Or.inl rfl, hattempts⟩
    · simp only [Option.some.injEq, Prod.mk.injEq] at h
      obtain ⟨rfl, rfl⟩ := h
      rw [List.length_dropLast]
      exact ⟨by simp; omega, by omega, Or.inr ⟨x, rfl⟩, hattempts⟩

/-- A merge oracle that never merges, used to witness C3. -/
def sampleTryMergeNone : Driver.Settlement → Driver.Settlement → Option Driver.Settlement :=
  fun _ _ => none

open Driver in
/-- Witness for C3 at a concrete two-element working vector. -/
theorem C3_merge_loop_monovariant_witness :
    loopStep sampleTryMergeNone ([sampleSettlementA, sampleSettlementB], []) =
        some ([sampleSettlementA], [sampleSettlementB])
      ∧ ((2 * [sampleSettlementA].length + [sampleSettlementB].length <
            2 * [sampleSettlementA, sampleSettlementB].length
              + ([] : List Driver.Settlement).length)
          ∧ [sampleSettlementA].length + 1
              = [sampleSettlementA, sampleSettlementB].length
          ∧ ([sampleSettlementB] = ([] : List Driver.Settlement)
              ∨ ∃ x, [sampleSettlementB] = [] ++ [x])
          ∧ mergeLoopAttempts sampleTryMergeNone
                [sampleSettlementA, sampleSettlementB] ≤
              [sampleSettlementA, sampleSettlementB].length
                * [sampleSettlementA, sampleSettlementB].length) :=
  ⟨by decide,
    C3_merge_loop_monovariant sampleTryMergeNone
      [sampleSettlementA, sampleSettlementB] [] [sampleSettlementA]
      [sampleSettlementB] (by decide)⟩

open Driver in
/-- C4: constructing a `Solution` fails with `InvalidClearingPrices` if and
only if some user trade lacks a clearing price for the wrapped sell token or
the wrapped buy token, and every successfully constructed `Solution` has a
price for both tokens of every user trade after the ETH→WETH substitution. -/
theorem C4_clearing_price_check (id : Nat) (trades : List Trade)
    (prices : List (Token × Nat)) (interactions : List Interaction) (solverName : Nat)
    (score : SolverScore) (weth : Token) :
    ((∃ err, Solution.new id trades prices interactions solverName score weth
          = Except.error err) ↔
        ∃ f ∈ (Solution.mk id trades prices interactions solverName score
            weth).userTrades,
          prices.lookup (wrapToken f.order.sellToken weth) = none
            ∨ prices.lookup (wrapToken f.order.buyToken weth) = none)
      ∧ (∀ sol, Solution.new id trades prices interactions solverName score weth
            = Except.ok sol →
          ∀ f ∈ sol.userTrades,
            (sol.prices.lookup (wrapToken f.order.sellToken sol.weth)).isSome = true
              ∧ (sol.prices.lookup (wrapToken f.order.buyToken sol.weth)).isSome
                  = true) := by
  constructor
  · unfold Solution.new
    dsimp only
    split
    · rename_i hall
      simp only [List.all_eq_true, Bool.and_eq_true] at hall
      constructor
      · rintro ⟨err, herr⟩
        cases herr
      · rintro ⟨f, hf, hbad⟩
        have := hall f hf
        rcases hbad with hbad | hbad <;>
          simp [Solution.clearingPrice, hbad] at this
    · rename_i hall
      simp only [List.all_eq_true, Bool.and_eq_true, not_forall] at hall
      constructor
      · intro _
        obtain ⟨f, hf, hbad⟩ := hall
        refine ⟨f, hf, ?_⟩
        by_contra hc
        push_neg at hc
        obtain ⟨h1, h2⟩ := hc
        apply hbad
        constructor
        · simp only [Solution.clearingPrice]
          cases hl : prices.lookup (wrapToken f.order.sellToken weth)
          · exact absurd hl h1
          · simp
        · simp only [Solution.clearingPrice]
          cases hl : prices.lookup (wrapToken f.order.buyToken weth)
          · exact absurd hl h2
          · simp
      · intro _
        exact ⟨InvalidClearingPrices.mk, rfl⟩
  · intro sol hok f hf
    unfold Solution.new at hok
    dsimp only at hok
    split at hok
    · rename_i hall
      injection hok with hok
      subst hok
      simp only [List.all_eq_true, Bool.and_eq_true] at hall
      exact hall f hf
    · cases hok

/-- A concrete market order used to witness C4. -/
def sampleOrderC4 : Driver.Order := ⟨1, 5, 2, 5, Driver.OrderKind.market⟩

open Driver in
/-- Witness for C4: a solution with a user trade but an empty price map is
rejected with `InvalidClearingPrices`. -/
theorem C4_clearing_price_check_witness :
    ∃ err, Solution.new 1 [Trade.fulfillment ⟨sampleOrderC4, 5⟩] [] [] 7
        (SolverScore.solver 0) 9 = Except.error err :=
  (C4_clearing_price_check 1 [Trade.fulfillment ⟨sampleOrderC4, 5⟩] [] [] 7
      (SolverScore.solver 0) 9).1.mpr
    ⟨⟨sampleOrderC4, 5⟩, by decide, Or.inl (by decide)⟩

open Driver in
/-- C10: a solution with no user trades — in particular one consisting only of
Jit trades or only of fulfillments of Liquidity-class orders — is empty, is
discarded by `Competition::solve` before encoding, and contributes nothing to
the outcome: solving with it present equals solving without it. -/
theorem C10_empty_solutions_discarded (p : SolveParams) (st : CompetitionState)
    (l1 l2 : List Solution) (s : Solution) (huser : s.userTrades = []) :
    s.isEmpty = true
      ∧ ((∀ t ∈ s.trades, (∃ j, t = Trade.jit j)
            ∨ ∃ f, t = Trade.fulfillment f ∧ f.order.kind = OrderKind.liquidity) →
          s.userTrades = [])
      ∧ Competition.solve p (Except.ok (l1 ++ s :: l2)) st
          = Competition.solve p (Except.ok (l1 ++ l2)) st := by
  have hs : s.isEmpty = true := by
    simp [Solution.isEmpty, huser]
  refine ⟨hs, ?_, ?_⟩
  · intro hall
    unfold Solution.userTrades
    rw [List.filterMap_eq_nil_iff]
    intro t ht
    rcases hall t ht with ⟨j, rfl⟩ | ⟨f, rfl, hkind⟩
    · rfl
    · simp [hkind]
  · unfold Competition.solve
    cases p.timeoutOk
    · rfl
    · have hfilter : (l1 ++ s :: l2).filter (fun x => !x.isEmpty)
          = (l1 ++ l2).filter (fun x => !x.isEmpty) := by
        simp [List.filter_append, hs]
      simp only [scoredSettlements, hfilter]

/-- A concrete solution holding only a Jit trade, used to witness C10. -/
def sampleSolutionJit : Driver.Solution :=
  ⟨1, [Driver.Trade.jit 0], [], [], 7, Driver.SolverScore.solver 0, 9⟩

/-- Solve parameters with a live deadline, used to witness C10. -/
def sampleParamsLive : Driver.SolveParams :=
  ⟨true, fun _ => none, id, fun _ _ => none, fun _ => none⟩

open Driver in
/-- Witness for C10: a Jit-only solution is empty and removing it from the
solver's output does not change the result of `Competition::solve`. -/
theorem C10_empty_solutions_discarded_witness :
    sampleSolutionJit.userTrades = []
      ∧ (sampleSolutionJit.isEmpty = true
        ∧ ((∀ t ∈ sampleSolutionJit.trades, (∃ j, t = Trade.jit j)
              ∨ ∃ f, t = Trade.fulfillment f
                  ∧ f.order.kind = OrderKind.liquidity) →
            sampleSolutionJit.userTrades = [])
        ∧ Competition.solve sampleParamsLive
              (Except.ok ([] ++ sampleSolutionJit :: [])) ⟨none⟩
            = Competition.solve sampleParamsLive (Except.ok ([] ++ [])) ⟨none⟩) :=
  ⟨rfl,
    C10_empty_solutions_discarded sampleParamsLive ⟨none⟩ [] [] sampleSolutionJit rfl⟩

theorem lookup_mem {α β : Type} [BEq α] [LawfulBEq α] (l : List (α × β)) (k : α) (v : β)
    (h : l.lookup k = some v) : (k, v) ∈ l := by
  induction l with
  | nil => simp [List.lookup] at h
  | cons p rest ih =>
    obtain ⟨k1, v1⟩ := p
    rw [List.lookup] at h
    cases hbeq : k == k1 with
    | true =>
      rw [hbeq] at h
      injection h with h
      subst h
      have hk : k = k1 := eq_of_beq hbeq
      subst hk
      exact List.mem_cons_self _ _
    | false =>
      rw [hbeq] at h
      exact List.mem_cons_of_mem _ (ih h)

open Driver in
/-- C5: when some user trade buys native ETH, the published clearing prices
contain an entry for the ETH sentinel whose amount is the WETH clearing price,
and the WETH token is absent from the published set precisely when no user
trade sells or buys WETH; when no user trade buys ETH the published prices are
exactly the solver-supplied price map. Stated for a WETH address distinct from
the ETH sentinel; the `lookup = some` premise is what `Solution::new`
guarantees for any solution with an ETH-buying trade. -/
theorem C5_native_price_extension (s : Solution) (w : Nat)
    (hweth : s.weth ≠ ETH_TOKEN) :
    ((s.userTrades.any (fun t => t.order.buysEth)) = true →
      s.prices.lookup s.weth = some w →
      ∃ out, s.clearingPrices = some out
        ∧ Asset.mk ETH_TOKEN w ∈ out
        ∧ ((∀ a ∈ out, a.token ≠ s.weth) ↔
            (s.userTrades.all (fun t =>
              t.order.sellToken != s.weth && t.order.buyToken != s.weth)) = true))
      ∧ ((s.userTrades.any (fun t => t.order.buysEth)) = false →
          s.clearingPrices = some (s.prices.map (fun pr => Asset.mk pr.1 pr.2))) := by
  constructor
  · intro hany hlook
    have hmem : (s.weth, w) ∈ s.prices := lookup_mem s.prices s.weth w hlook
    unfold Solution.clearingPrices
    dsimp only
    rw [if_pos hany]
    cases hall : s.userTrades.all (fun t =>
        t.order.sellToken != s.weth && t.order.buyToken != s.weth) with
    | true =>
      rw [hlook]
      refine ⟨List.filter (fun p => p.token != s.weth)
          (List.map (fun pr => Asset.mk pr.1 pr.2) s.prices)
            ++ [Asset.mk ETH_TOKEN w], rfl, ?_, ?_⟩
      · exact List.mem_append_right _ (List.mem_singleton.mpr rfl)
      · simp only [iff_true]
        intro a ha
        rcases List.mem_append.mp ha with ha | ha
        · have hpred := (List.mem_filter.mp ha).2
          simpa using hpred
        · rw [List.mem_singleton] at ha
          subst ha
          exact Ne.symm hweth
    | false =>
      rw [hlook]
      refine ⟨List.map (fun pr => Asset.mk pr.1 pr.2) s.prices
          ++ [Asset.mk ETH_TOKEN w], rfl, ?_, ?_⟩
      · exact List.mem_append_right _ (List.mem_singleton.mpr rfl)
      · simp only [Bool.false_eq_true, iff_false]
        intro hLHS
        have hin : (Asset.mk s.weth w) ∈
            s.prices.map (fun pr => Asset.mk pr.1 pr.2) ++ [Asset.mk ETH_TOKEN w] :=
          List.mem_append_left _ (List.mem_map.mpr ⟨(s.weth, w), hmem, rfl⟩)
        exact hLHS _ hin rfl
  · intro hany
    unfold Solution.clearingPrices
    dsimp only
    rw [if_neg (by simp [hany])]

/-- A concrete solution buying native ETH, used to witness C5: WETH address 9
priced at 7, one market order selling token 1 for ETH. -/
def sampleSolutionEth : Driver.Solution :=
  ⟨1,
    [Driver.Trade.fulfillment ⟨⟨1, 5, Driver.ETH_TOKEN, 5, Driver.OrderKind.market⟩, 5⟩],
    [(9, 7)], [], 7, Driver.SolverScore.solver 0, 9⟩

open Driver in
/-- Witness for C5: the ETH sentinel price 7 is published for the concrete
ETH-buying solution. -/
theorem C5_native_price_extension_witness :
    sampleSolutionEth.weth ≠ ETH_TOKEN
      ∧ ∃ out, sampleSolutionEth.clearingPrices = some out
          ∧ Asset.mk ETH_TOKEN 7 ∈ out
          ∧ ((∀ a ∈ out, a.token ≠ sampleSolutionEth.weth) ↔
              (sampleSolutionEth.userTrades.all (fun t =>
                t.order.sellToken != sampleSolutionEth.weth
                  && t.order.buyToken != sampleSolutionEth.weth)) = true) :=
  ⟨by decide,
    (C5_native_price_extension sampleSolutionEth 7 (by decide)).1
      (by decide) (by decide)⟩

namespace Driver

theorem allowanceKey_mk (k : Nat × Nat) (x : Nat) :
    allowanceKey (EthAllowance.mk k.1 k.2 x) = k := by
  cases k
  rfl

theorem normalizedEntries_map_key (all : List EthAllowance) :
    (normalizedEntries all).map allowanceKey = (all.map allowanceKey).dedup := by
  unfold normalizedEntries
  rw [List.map_map]
  have hfun : (allowanceKey ∘ fun k => EthAllowance.mk k.1 k.2 (satSumFor all k))
      = fun k => k := by
    funext k
    exact allowanceKey_mk k _
  rw [hfun]
  exact List.map_id _

end Driver

open Driver in
/-- C6: the normalized allowance sequence of a solution is sorted in the
lexicographic (token, spender) order, has exactly one entry per distinct
(token, spender) key occurring in the interactions' allowances (pairwise
distinct keys, and a key occurs among the collected allowances iff it has an
entry), and each entry's amount is the saturating sum of all required amounts
for its key. -/
theorem C6_allowance_normalization (s : Solution) (k : Nat × Nat)
    (a : EthAllowance) (ha : a ∈ s.allowances) :
    List.Sorted allowLe s.allowances
      ∧ (s.allowances.map allowanceKey).Nodup
      ∧ (k ∈ s.collectedAllowances.map allowanceKey ↔
          ∃ b ∈ s.allowances, allowanceKey b = k)
      ∧ a.amount = satSumFor s.collectedAllowances (allowanceKey a) := by
  have hperm : List.Perm s.allowances (normalizedEntries s.collectedAllowances) :=
    List.perm_insertionSort allowLe _
  refine ⟨?_, ?_, ?_, ?_⟩
  · exact List.sorted_insertionSort allowLe _
  · rw [List.Perm.nodup_iff (hperm.map allowanceKey)]
    rw [normalizedEntries_map_key]
    exact List.nodup_dedup _
  · rw [← List.mem_dedup]
    rw [← normalizedEntries_map_key]
    rw [List.mem_map]
    constructor
    · rintro ⟨b, hb, rfl⟩
      exact ⟨b, hperm.mem_iff.mpr hb, rfl⟩
    · rintro ⟨b, hb, rfl⟩
      exact ⟨b, hperm.mem_iff.mp hb, rfl⟩
  · have hmem : a ∈ normalizedEntries s.collectedAllowances := hperm.mem_iff.mp ha
    unfold normalizedEntries at hmem
    rw [List.mem_map] at hmem
    obtain ⟨kk, _, rfl⟩ := hmem
    rw [allowanceKey_mk]

/-- A concrete solution whose single custom interaction requires three
allowances, two of which share the (token, spender) key (1, 2). -/
def sampleSolutionAllow : Driver.Solution :=
  ⟨1, [], [],
    [Driver.Interaction.custom [⟨1, 2, 10⟩, ⟨1, 2, 5⟩, ⟨0, 3, 4⟩] false],
    7, Driver.SolverScore.solver 0, 9⟩

open Driver in
/-- Witness for C6: for the concrete interaction bag, the key (1, 2) gets the
single entry of amount 15 in the sorted normalized sequence. -/
theorem C6_allowance_normalization_witness :
    (⟨1, 2, 15⟩ : Driver.EthAllowance) ∈ sampleSolutionAllow.allowances
      ∧ (List.Sorted allowLe sampleSolutionAllow.allowances
        ∧ (sampleSolutionAllow.allowances.map allowanceKey).Nodup
        ∧ ((1, 2) ∈ sampleSolutionAllow.collectedAllowances.map allowanceKey ↔
            ∃ b ∈ sampleSolutionAllow.allowances, allowanceKey b = (1, 2))
        ∧ (⟨1, 2, 15⟩ : Driver.EthAllowance).amount
            = satSumFor sampleSolutionAllow.collectedAllowances
                (allowanceKey ⟨1, 2, 15⟩)) :=
  ⟨by decide,
    C6_allowance_normalization sampleSolutionAllow (1, 2) ⟨1, 2, 15⟩ (by decide)⟩
